import Mathlib

/-!
Shallow embedding of the multi-repository log aggregation and resumable
pagination engine from `crates/unified-knowledge/src/git/mod.rs` and the
data model it shares (`crates/unified-knowledge/src/lib.rs`).

Modelling conventions:
* `DateTime<Utc>` timestamps are modelled as `Nat` (only ordering and
  equality of timestamps are observable in this core).
* `Uuid` values are modelled as `Nat`.
* `usize` arithmetic: Rust's `saturating_sub` is Lean's truncated `Nat`
  subtraction; the two panicking operations in `paginate` /
  `continue_from_timestamp` (the unchecked `total_entries + page_size - 1`
  subtraction and the two divisions by `page_size`) are modelled by
  `checkedSub` / `checkedDiv` returning `Option`, so a panic is `none`.
* The `f64` fields of `PageMetadata` are only ever set to the constant
  `0.0` in this core, and are modelled as the `Nat` constant `0`.
* `Utc::now()` is an external input, passed explicitly as a `now : Nat`
  parameter wherever the source calls it.
* `BTreeMap<DateTime<Utc>, LogEntry>` is modelled as a strictly-sorted
  association list `List (Nat × LogEntry)`; `insert` replaces the value at
  an existing key, exactly as `BTreeMap::insert` does.
* Fallible external calls (git2 repository operations, tree diffs) are
  modelled as `Except String` values carried by the input data, and `?`
  propagation is the `Except` monad's bind.
-/

namespace UnifiedKnowledge

/-- `DiffStats` from `lib.rs`: insertion/deletion/file counts of one commit. -/
structure DiffStats where
  insertions : Nat
  deletions : Nat
  files_changed : Nat
deriving DecidableEq, Repr

/-- `LogEntry` from `lib.rs`: one normalized record per commit per repository. -/
structure LogEntry where
  id : Nat
  timestamp : Nat
  commit_hash : String
  author : String
  message : String
  submodule_path : String
  files_changed : List String
  diff_stats : DiffStats
deriving DecidableEq, Repr

/-- `SubmoduleInfo` from `lib.rs`: one record per discovered repository. -/
structure SubmoduleInfo where
  name : String
  path : String
  url : String
  commit_hash : String
  last_updated : Nat
deriving DecidableEq, Repr

/-- `PageNavigation` from `lib.rs`. -/
structure PageNavigation where
  previous_timestamp : Option Nat
  next_timestamp : Option Nat
  can_continue : Bool
  can_go_back : Bool
  bookmark_id : Option Nat
deriving DecidableEq, Repr

/-- `PageMetadata` from `lib.rs`; `paginate` fills every field with zero. -/
structure PageMetadata where
  total_concepts : Nat
  emoji_density : Nat
  quality_score : Nat
  reaction_count : Nat
  hot_take_count : Nat
deriving DecidableEq, Repr

/-- `Page<LogEntry>` from `lib.rs`, specialized to the item type this core uses. -/
structure Page where
  page_number : Nat
  total_pages : Nat
  items : List LogEntry
  timestamp_range : Nat × Nat
  navigation : PageNavigation
  metadata : PageMetadata
deriving DecidableEq, Repr

/-- `a - b` on `usize` without `saturating_sub`: panics (here `none`) on underflow. -/
def checkedSub (a b : Nat) : Option Nat :=
  if b ≤ a then some (a - b) else none

/-- `a / b` on `usize`: panics (here `none`) on division by zero. -/
def checkedDiv (a b : Nat) : Option Nat :=
  if b = 0 then none else some (a / b)

/-- `BTreeMap::insert` on a strictly-sorted association list: inserts at the
sorted position, replacing the stored value when the key is already present. -/
def btreeInsert (k : Nat) (v : LogEntry) : List (Nat × LogEntry) → List (Nat × LogEntry)
  | [] => [(k, v)]
  | (k₁, v₁) :: rest =>
    if k < k₁ then (k, v) :: (k₁, v₁) :: rest
    else if k = k₁ then (k, v) :: rest
    else (k₁, v₁) :: btreeInsert k v rest

/-- `BTreeMap::clear`: `order_by_timestamp` first clears any prior ordering. -/
def btreeClear (_ : List (Nat × LogEntry)) : List (Nat × LogEntry) := []

/-- `GitLogCollector::order_by_timestamp` (git/mod.rs:276-289): clears the
prior `timestamp_ordering` map, then inserts every log entry keyed by its
timestamp alone. -/
def order_by_timestamp (prev : List (Nat × LogEntry)) (logs : List LogEntry) :
    List (Nat × LogEntry) :=
  logs.foldl (fun m e => btreeInsert e.timestamp e m) (btreeClear prev)

/-- The min/max-timestamp computation of `paginate` (git/mod.rs:305-309):
first and last item timestamps when the page is non-empty, the current
wall-clock time (twice) when it is empty. -/
def rangeOf (items : List LogEntry) (now : Nat) : Nat × Nat :=
  match items.head?, items.getLast? with
  | some a, some b => (a.timestamp, b.timestamp)
  | _, _ => (now, now)

/-- The body of `GitLogCollector::paginate` (git/mod.rs:295-342) after the
`total_pages` computation: slicing, timestamp range, navigation, metadata. -/
def pageBody (idx : List (Nat × LogEntry)) (page_size now page total_pages : Nat) :
    Page :=
  let total_entries := idx.length
  let start_idx := (page - 1) * page_size
  let end_idx := min (start_idx + page_size) total_entries
  let vals := idx.map Prod.snd
  let items := (vals.drop start_idx).take page_size
  { page_number := page
    total_pages := total_pages
    items := items
    timestamp_range := rangeOf items now
    navigation :=
      { previous_timestamp :=
          if 1 < page then (vals[start_idx - 1]?).map LogEntry.timestamp else none
        next_timestamp :=
          if end_idx < total_entries then (vals[end_idx]?).map LogEntry.timestamp
          else none
        can_continue := decide (end_idx < total_entries)
        can_go_back := decide (1 < page)
        bookmark_id := none }
    metadata :=
      { total_concepts := 0
        emoji_density := 0
        quality_score := 0
        reaction_count := 0
        hot_take_count := 0 } }

/-- `GitLogCollector::paginate` (git/mod.rs:291-343).
`total_pages = (total_entries + page_size - 1) / page_size` underflows when
both counts are zero and divides by zero when `page_size = 0`; both panics
are `none`. Everything else is total. -/
def paginate (idx : List (Nat × LogEntry)) (page_size now page : Nat) :
    Option Page :=
  match checkedSub (idx.length + page_size) 1 with
  | none => none
  | some t =>
    match checkedDiv t page_size with
    | none => none
    | some total_pages => some (pageBody idx page_size now page total_pages)

/-- `Iterator::position`: index of the first element satisfying `p`. -/
def positionFrom (p : Nat → Bool) : List Nat → Option Nat
  | [] => none
  | t :: rest => if p t then some 0 else (positionFrom p rest).map (· + 1)

/-- The `position` computation of `continue_from_timestamp`
(git/mod.rs:347-350): first key `≥ T`, defaulting to `0` when none is. -/
def resume_position (idx : List (Nat × LogEntry)) (T : Nat) : Nat :=
  ((positionFrom (fun t => T ≤ t) (idx.map Prod.fst))).getD 0

/-- `GitLogCollector::continue_from_timestamp` (git/mod.rs:345-354): the page
number is `position / page_size + 1`, a panicking division for
`page_size = 0`. -/
def continue_from_timestamp (idx : List (Nat × LogEntry)) (page_size now T : Nat) :
    Option Page :=
  match checkedDiv (resume_position idx T) page_size with
  | none => none
  | some q => paginate idx page_size now (q + 1)

/-- `GitLogCollector::get_submodule_stats` (git/mod.rs:356-364). -/
def get_submodule_stats (idx : List (Nat × LogEntry)) : List String :=
  (idx.map Prod.snd).map LogEntry.submodule_path

/-- One commit as seen by `create_log_entry_from_commit`: the metadata read
from git2, with the outcomes of the fallible external calls
(`DateTime::from_timestamp`, tree diff, changed-file listing) carried as data. -/
structure CommitData where
  timestamp_value : Option Nat
  author : Option String
  message : Option String
  commit_hash : String
  diffResult : Except String DiffStats
  changedFilesResult : Except String (List String)
  freshId : Nat
deriving Repr

/-- `GitLogCollector::create_log_entry_from_commit` (git/mod.rs:164-188):
defaults for missing metadata, but `?` propagation on the diff computations. -/
def create_log_entry_from_commit (now : Nat) (c : CommitData) (submodule_name : String) :
    Except String LogEntry :=
  match c.diffResult with
  | .error e => .error e
  | .ok diff_stats =>
    match c.changedFilesResult with
    | .error e => .error e
    | .ok files_changed =>
      .ok
        { id := c.freshId
          timestamp := c.timestamp_value.getD now
          commit_hash := c.commit_hash
          author := c.author.getD "unknown"
          message := c.message.getD ""
          submodule_path := submodule_name
          files_changed := files_changed
          diff_stats := diff_stats }

/-- `GitLogCollector::collect_logs_from_path` (git/mod.rs:145-162): walks the
commits in revwalk order, propagating any per-commit error with `?`. -/
def collect_logs_from_path (now : Nat) (commits : List CommitData) (submodule_name : String) :
    Except String (List LogEntry) :=
  match commits with
  | [] => .ok []
  | c :: rest =>
    match create_log_entry_from_commit now c submodule_name with
    | .error e => .error e
    | .ok entry =>
      match collect_logs_from_path now rest submodule_name with
      | .error e => .error e
      | .ok more => .ok (entry :: more)

/-- One submodule as seen by `collect_all_submodule_logs`: whether its path
exists on disk, and the outcome of `collect_logs_from_path` for it. -/
structure SubmoduleCollection where
  name : String
  pathExists : Bool
  collectResult : Except String (List LogEntry)
deriving Repr

/-- `GitLogCollector::enhance_with_ragit_analysis` (git/mod.rs:240-254):
inspects each entry read-only and always returns the logs unchanged, `Ok`. -/
def enhance_with_ragit_analysis (logs : List LogEntry) : Except String (List LogEntry) :=
  Except.ok logs

/-- `GitLogCollector::collect_all_submodule_logs` (git/mod.rs:109-143): a
missing path is skipped (`continue`) with a warning, a failed collection is
skipped with a warning; successful logs are appended in submodule order,
then optionally passed through ragit enhancement. -/
def collect_all_submodule_logs (subs : List SubmoduleCollection)
    (ragit_integration : Bool) : Except String (List LogEntry) :=
  let all_logs := subs.foldl
    (fun acc s =>
      if s.pathExists then
        match s.collectResult with
        | .ok logs => acc ++ logs
        | .error _ => acc
      else acc)
    []
  if ragit_integration then enhance_with_ragit_analysis all_logs
  else Except.ok all_logs

/-- The logs `collect_all_submodule_logs` keeps: those of submodules whose
path exists and whose collection succeeded, in submodule order. -/
def keptLogs (subs : List SubmoduleCollection) : List LogEntry :=
  (subs.map fun s =>
    if s.pathExists then
      match s.collectResult with
      | .ok logs => logs
      | .error _ => []
    else []).flatten

/-- `GitLogCollector` state (git/mod.rs:11-18). -/
structure GitLogCollector where
  root_path : String
  submodules : List SubmoduleInfo
  timestamp_ordering : List (Nat × LogEntry)
  current_page : Nat
  page_size : Nat
  ragit_integration : Bool
deriving Repr

/-- `discover_submodules` (git/mod.rs:64-107): the declared submodules (as
read from repository metadata) plus the synthetic root pseudo-submodule. -/
def discover_submodules (declared : List SubmoduleInfo) (now : Nat) :
    List SubmoduleInfo :=
  declared ++
    [{ name := "root", path := ".", url := "local", commit_hash := "HEAD",
       last_updated := now }]

/-- `GitLogCollector::new` (git/mod.rs:21-39): fails only when the root
repository cannot be opened (inside `discover_submodules`); `page_size` is
stored without any validation. -/
def GitLogCollector.new (root_path : String) (rootRepoValid : Bool)
    (declared : List SubmoduleInfo) (ragit : Bool) (now : Nat) (page_size : Nat) :
    Except String GitLogCollector :=
  if rootRepoValid then
    .ok
      { root_path := root_path
        submodules := discover_submodules declared now
        timestamp_ordering := []
        current_page := 0
        page_size := page_size
        ragit_integration := ragit }
  else .error "failed to open root repository"

/-- Concrete entries used by the concrete-input theorems below.
`entryA` and `entryB` share timestamp 5; `entry1`, `entry2`, `entry3` have
the distinct timestamps 1, 2, 3. -/
def sampleStats : DiffStats := { insertions := 1, deletions := 0, files_changed := 1 }

def entryA : LogEntry :=
  { id := 10, timestamp := 5, commit_hash := "aaaa", author := "alice",
    message := "first", submodule_path := "root", files_changed := [],
    diff_stats := sampleStats }

def entryB : LogEntry :=
  { id := 11, timestamp := 5, commit_hash := "bbbb", author := "bob",
    message := "second", submodule_path := "sub", files_changed := [],
    diff_stats := sampleStats }

def entry1 : LogEntry :=
  { id := 1, timestamp := 1, commit_hash := "c1", author := "a", message := "m1",
    submodule_path := "root", files_changed := [], diff_stats := sampleStats }

def entry2 : LogEntry :=
  { id := 2, timestamp := 2, commit_hash := "c2", author := "a", message := "m2",
    submodule_path := "root", files_changed := [], diff_stats := sampleStats }

def entry3 : LogEntry :=
  { id := 3, timestamp := 3, commit_hash := "c3", author := "a", message := "m3",
    submodule_path := "root", files_changed := [], diff_stats := sampleStats }

/-- The three-entry index with timestamps 1, 2, 3. -/
def idx3 : List (Nat × LogEntry) := order_by_timestamp [] [entry1, entry2, entry3]

/-- A commit whose tree-diff computation fails. -/
def commitBad : CommitData :=
  { timestamp_value := some 7, author := some "alice", message := some "broken",
    commit_hash := "dead", diffResult := .error "diff failed",
    changedFilesResult := .ok [], freshId := 42 }

/-! ### Properties of the timestamp-keyed `BTreeMap` insertion -/

/-- The key set after a `btreeInsert` is the old key set plus the new key. -/
theorem keys_btreeInsert_toFinset (k : Nat) (v : LogEntry) :
    ∀ (m : List (Nat × LogEntry)),
      ((btreeInsert k v m).map Prod.fst).toFinset
        = insert k (m.map Prod.fst).toFinset := by
  intro m
  induction m with
  | nil => simp [btreeInsert]
  | cons hd tl ih =>
    obtain ⟨k₁, v₁⟩ := hd
    by_cases h1 : k < k₁
    · simp [btreeInsert, h1]
    · by_cases h2 : k = k₁
      · subst h2
        simp [btreeInsert, h1]
      · simp only [btreeInsert, if_neg h1, if_neg h2, List.map_cons,
          List.toFinset_cons, ih]
        exact Finset.Insert.comm _ _ _

/-- A key of the map after insertion is the inserted key or an old key. -/
theorem mem_keys_btreeInsert {t k : Nat} {v : LogEntry} {m : List (Nat × LogEntry)}
    (h : t ∈ (btreeInsert k v m).map Prod.fst) : t = k ∨ t ∈ m.map Prod.fst := by
  have hf : t ∈ ((btreeInsert k v m).map Prod.fst).toFinset := List.mem_toFinset.mpr h
  rw [keys_btreeInsert_toFinset, Finset.mem_insert] at hf
  rcases hf with hf | hf
  · exact Or.inl hf
  · exact Or.inr (List.mem_toFinset.mp hf)

/-- `btreeInsert` keeps the key list strictly sorted. -/
theorem pairwise_keys_btreeInsert (k : Nat) (v : LogEntry) :
    ∀ (m : List (Nat × LogEntry)),
      (m.map Prod.fst).Pairwise (· < ·) →
      ((btreeInsert k v m).map Prod.fst).Pairwise (· < ·) := by
  intro m
  induction m with
  | nil => intro _; simp [btreeInsert]
  | cons hd tl ih =>
    obtain ⟨k₁, v₁⟩ := hd
    intro hp
    rw [List.map_cons, List.pairwise_cons] at hp
    obtain ⟨hhead, htl⟩ := hp
    by_cases h1 : k < k₁
    · simp only [btreeInsert, if_pos h1, List.map_cons]
      refine List.Pairwise.cons ?_ (List.Pairwise.cons hhead htl)
      intro b hb
      rcases List.mem_cons.mp hb with rfl | hb
      · exact h1
      · exact lt_trans h1 (hhead b hb)
    · by_cases h2 : k = k₁
      · subst h2
        simp only [btreeInsert, if_neg h1, if_pos rfl, List.map_cons]
        exact List.Pairwise.cons hhead htl
      · have h3 : k₁ < k := by omega
        simp only [btreeInsert, if_neg h1, if_neg h2, List.map_cons]
        refine List.Pairwise.cons ?_ (ih htl)
        intro b hb
        rcases mem_keys_btreeInsert hb with rfl | hb
        · exact h3
        · exact hhead b hb

/-- `btreeInsert` preserves the invariant that every stored entry's timestamp
is its key, provided the inserted entry is keyed by its own timestamp. -/
theorem ts_btreeInsert {k : Nat} {v : LogEntry} (hv : v.timestamp = k) :
    ∀ {m : List (Nat × LogEntry)}, (∀ p ∈ m, p.2.timestamp = p.1) →
      ∀ p ∈ btreeInsert k v m, p.2.timestamp = p.1 := by
  intro m
  induction m with
  | nil =>
    intro _ p hp
    simp [btreeInsert] at hp
    subst hp
    exact hv
  | cons hd tl ih =>
    obtain ⟨k₁, v₁⟩ := hd
    intro hm p hp
    have hhd : v₁.timestamp = k₁ := hm (k₁, v₁) (List.mem_cons_self _ _)
    have htl : ∀ q ∈ tl, q.2.timestamp = q.1 :=
      fun q hq => hm q (List.mem_cons_of_mem _ hq)
    by_cases h1 : k < k₁
    · simp only [btreeInsert, if_pos h1] at hp
      rcases List.mem_cons.mp hp with rfl | hp
      · exact hv
      · exact hm p hp
    · by_cases h2 : k = k₁
      · subst h2
        simp only [btreeInsert, if_neg h1, if_pos rfl] at hp
        rcases List.mem_cons.mp hp with rfl | hp
        · exact hv
        · exact htl p hp
      · simp only [btreeInsert, if_neg h1, if_neg h2] at hp
        rcases List.mem_cons.mp hp with rfl | hp
        · exact hhd
        · exact ih htl p hp

/-- Folding `btreeInsert` over the logs keeps the keys strictly sorted and
every stored entry keyed by its own timestamp. -/
theorem foldl_insert_sorted_ts :
    ∀ (logs : List LogEntry) (m : List (Nat × LogEntry)),
      (m.map Prod.fst).Pairwise (· < ·) →
      (∀ p ∈ m, p.2.timestamp = p.1) →
      (((logs.foldl (fun m e => btreeInsert e.timestamp e m) m).map
          Prod.fst).Pairwise (· < ·)
        ∧ ∀ p ∈ logs.foldl (fun m e => btreeInsert e.timestamp e m) m,
            p.2.timestamp = p.1) := by
  intro logs
  induction logs with
  | nil => intro m h1 h2; exact ⟨h1, h2⟩
  | cons e rest ih =>
    intro m h1 h2
    simp only [List.foldl_cons]
    exact ih _ (pairwise_keys_btreeInsert _ _ _ h1) (ts_btreeInsert rfl h2)

/-- The key set after folding `btreeInsert` over the logs is the set of the
logs' timestamps together with the initial key set. -/
theorem foldl_insert_keys_toFinset :
    ∀ (logs : List LogEntry) (m : List (Nat × LogEntry)),
      ((logs.foldl (fun m e => btreeInsert e.timestamp e m) m).map
          Prod.fst).toFinset
        = (logs.map LogEntry.timestamp).toFinset ∪ (m.map Prod.fst).toFinset := by
  intro logs
  induction logs with
  | nil => intro m; simp
  | cons e rest ih =>
    intro m
    simp only [List.foldl_cons, List.map_cons, List.toFinset_cons]
    rw [ih, keys_btreeInsert_toFinset, Finset.union_insert, Finset.insert_union]

/-- Claim C1, counterexample: two entries sharing timestamp 5 collapse into a
single index entry, so the index built by `order_by_timestamp` does not
contain as many entries as the collection passed in; the second insertion has
overwritten the first. -/
theorem order_dup_timestamp_drops_entry :
    (order_by_timestamp [] [entryA, entryB]).length ≠ [entryA, entryB].length
      ∧ order_by_timestamp [] [entryA, entryB] = [(5, entryB)] := by
  constructor
  · decide
  · rfl

/-- Claim C1 (amended): the TimestampIndex built by `order_by_timestamp`
contains exactly one entry per distinct timestamp of the aggregated
collection; when several entries share a timestamp, each insertion replaces
the entry previously stored at that key, so all but one are silently
dropped and the index size is the number of distinct timestamps, not the
collection size. -/
theorem order_index_length_eq_distinct_timestamps
    (prev : List (Nat × LogEntry)) (logs : List LogEntry) :
    (order_by_timestamp prev logs).length
      = (logs.map LogEntry.timestamp).toFinset.card := by
  have h0 : order_by_timestamp prev logs
      = logs.foldl (fun m e => btreeInsert e.timestamp e m) [] := rfl
  have hsorted := (foldl_insert_sorted_ts logs [] (by simp) (by simp)).1
  have hnodup : ((logs.foldl (fun m e => btreeInsert e.timestamp e m) []).map
      Prod.fst).Nodup :=
    hsorted.imp (fun h => Nat.ne_of_lt h)
  have hkeys := foldl_insert_keys_toFinset logs []
  rw [h0]
  calc (logs.foldl (fun m e => btreeInsert e.timestamp e m) []).length
      = ((logs.foldl (fun m e => btreeInsert e.timestamp e m) []).map
          Prod.fst).length := (List.length_map _ _).symm
    _ = ((logs.foldl (fun m e => btreeInsert e.timestamp e m) []).map
          Prod.fst).toFinset.card := (List.toFinset_card_of_nodup hnodup).symm
    _ = (logs.map LogEntry.timestamp).toFinset.card := by
        rw [hkeys]; simp

/-- Claim C8: iterating the built TimestampIndex yields entries in
non-decreasing (indeed strictly increasing) timestamp order; no two stored
entries share a timestamp, so any entries sharing a timestamp trivially
appear in a fixed deterministic order; and rebuilding from the same input —
whatever ordering state the collector held before — produces the identical
index, hence identical iteration order and pagination. -/
theorem order_iteration_sorted_deterministic
    (prev₁ prev₂ : List (Nat × LogEntry)) (logs : List LogEntry) :
    ((((order_by_timestamp prev₁ logs).map Prod.snd).map
        LogEntry.timestamp).Pairwise (· ≤ ·))
    ∧ ((((order_by_timestamp prev₁ logs).map Prod.snd).map
        LogEntry.timestamp).Pairwise (· ≠ ·))
    ∧ order_by_timestamp prev₁ logs = order_by_timestamp prev₂ logs := by
  have h0 : order_by_timestamp prev₁ logs
      = logs.foldl (fun m e => btreeInsert e.timestamp e m) [] := rfl
  have hst := foldl_insert_sorted_ts logs [] (by simp) (by simp)
  have hts : ((order_by_timestamp prev₁ logs).map Prod.snd).map LogEntry.timestamp
      = (order_by_timestamp prev₁ logs).map Prod.fst := by
    rw [List.map_map]
    refine List.map_congr_left ?_
    intro p hp
    exact hst.2 p (by rw [h0] at hp; exact hp)
  refine ⟨?_, ?_, rfl⟩
  · rw [hts, h0]
    exact hst.1.imp (fun h => Nat.le_of_lt h)
  · rw [hts, h0]
    exact hst.1.imp (fun h => Nat.ne_of_lt h)

/-! ### Pagination helpers -/

/-- With a positive page size the `total_pages` computation cannot panic, so
`paginate` always produces the page built by `pageBody`. -/
theorem paginate_some (idx : List (Nat × LogEntry)) (ps now page : Nat)
    (h : 1 ≤ ps) :
    paginate idx ps now page
      = some (pageBody idx ps now page ((idx.length + ps - 1) / ps)) := by
  have h1 : 1 ≤ idx.length + ps := by omega
  have h2 : ¬ ps = 0 := by omega
  simp [paginate, checkedSub, checkedDiv, h1, h2]

/-- With a positive page size, `continue_from_timestamp` is `paginate` at
page `position / page_size + 1`. -/
theorem continue_eq_paginate (idx : List (Nat × LogEntry)) (ps now T : Nat)
    (h : 1 ≤ ps) :
    continue_from_timestamp idx ps now T
      = paginate idx ps now (resume_position idx T / ps + 1) := by
  have h2 : ¬ ps = 0 := by omega
  simp [continue_from_timestamp, checkedDiv, h2]

/-- The timestamp range of a non-empty item list does not involve the clock. -/
theorem rangeOf_now_indep {items : List LogEntry} (h : items ≠ [])
    (now₁ now₂ : Nat) : rangeOf items now₁ = rangeOf items now₂ := by
  cases items with
  | nil => exact absurd rfl h
  | cons a t =>
    have h2 : (a :: t).getLast? = some ((a :: t).getLast (by simp)) :=
      List.getLast?_eq_getLast _ _
    simp [rangeOf, h2]

/-- When the sliced items are non-empty, the whole page is independent of the
clock value. -/
theorem pageBody_now_indep (idx : List (Nat × LogEntry))
    (ps page tp now₁ now₂ : Nat)
    (h : (pageBody idx ps now₁ page tp).items ≠ []) :
    pageBody idx ps now₁ page tp = pageBody idx ps now₂ page tp := by
  have h' : ((idx.map Prod.snd).drop ((page - 1) * ps)).take ps ≠ [] := h
  simp only [pageBody]
  rw [rangeOf_now_indep h' now₁ now₂]

/-- Taking a positive number of elements of a non-empty list is non-empty. -/
theorem take_pos_ne_nil {α : Type} {l : List α} {n : Nat} (hl : l ≠ [])
    (hn : 1 ≤ n) : l.take n ≠ [] := by
  cases l with
  | nil => exact absurd rfl hl
  | cons a t =>
    cases n with
    | zero => omega
    | succ m => simp [List.take]

/-- Claim C9: with `page_size = 0` the `total_pages` computation panics —
`0 + 0 - 1` underflows the unsigned subtraction on an empty index, and the
division by `page_size` is a division by zero otherwise — so `paginate`
never returns a `Page`, and `continue_from_timestamp`'s own division by
`page_size` panics likewise; yet `GitLogCollector::new` stores
`page_size = 0` without rejecting it. -/
theorem paginate_page_size_zero_never_returns :
    (∀ (idx : List (Nat × LogEntry)) (now page : Nat),
        paginate idx 0 now page = none)
    ∧ (∀ (idx : List (Nat × LogEntry)) (now T : Nat),
        continue_from_timestamp idx 0 now T = none)
    ∧ (∀ (root : String) (declared : List SubmoduleInfo) (ragit : Bool)
        (now : Nat),
        ∃ c : GitLogCollector,
          GitLogCollector.new root true declared ragit now 0 = .ok c
            ∧ c.page_size = 0) := by
  refine ⟨?_, ?_, ?_⟩
  · intro idx now page
    cases idx with
    | nil => simp [paginate, checkedSub]
    | cons a t =>
      simp [paginate, checkedSub, checkedDiv,
        show (1 : Nat) ≤ (a :: t).length + 0 by simp]
  · intro idx now T
    simp [continue_from_timestamp, checkedDiv]
  · intro root declared ragit now
    exact ⟨_, rfl, rfl⟩

/-- Claim C10, counterexample: on the index built from the empty aggregated
collection, with `page_size = 1`, `paginate 0` returns an empty page, so
"`paginate(0)` does not fail or return an empty page" does not hold for
every built index. -/
theorem paginate_zero_empty_index_empty_page :
    (paginate (order_by_timestamp [] []) 1 0 0).map Page.items = some [] := rfl

/-- Claim C10 (amended): for every built index and `page_size ≥ 1`,
`paginate 0` succeeds and returns the same items, timestamp_range and
total_pages as `paginate 1` — and the same navigation too, since page 1
itself already has `can_go_back = false` and `previous_timestamp = none` —
differing only in the echoed `page_number`; its items are non-empty whenever
the index is non-empty, so page number 0 is an undocumented alias of the
first page. -/
theorem paginate_zero_aliases_page_one (idx : List (Nat × LogEntry))
    (ps now : Nat) (h : 1 ≤ ps) :
    ∃ p₀ p₁ : Page,
      paginate idx ps now 0 = some p₀ ∧ paginate idx ps now 1 = some p₁
      ∧ p₀.items = p₁.items ∧ p₀.timestamp_range = p₁.timestamp_range
      ∧ p₀.total_pages = p₁.total_pages ∧ p₀.navigation = p₁.navigation
      ∧ p₀.page_number = 0 ∧ p₁.page_number = 1
      ∧ p₀.navigation.can_go_back = false
      ∧ p₀.navigation.previous_timestamp = none
      ∧ (idx ≠ [] → p₀.items ≠ []) := by
  refine ⟨_, _, paginate_some idx ps now 0 h, paginate_some idx ps now 1 h,
    rfl, rfl, rfl, rfl, rfl, rfl, rfl, rfl, ?_⟩
  intro hne
  have hv : idx.map Prod.snd ≠ [] := by
    simpa using hne
  show ((idx.map Prod.snd).drop ((0 - 1) * ps)).take ps ≠ []
  have h0 : ((0 : Nat) - 1) * ps = 0 := by simp
  rw [h0, List.drop_zero]
  exact take_pos_ne_nil hv h

/-- Claim C10 witness: the alias theorem applied to the concrete three-entry
index with page size 1. -/
theorem paginate_zero_aliases_page_one_witness :
    (1 : Nat) ≤ 1
    ∧ ∃ p₀ p₁ : Page,
        paginate idx3 1 7 0 = some p₀ ∧ paginate idx3 1 7 1 = some p₁
        ∧ p₀.items = p₁.items ∧ p₀.timestamp_range = p₁.timestamp_range
        ∧ p₀.total_pages = p₁.total_pages ∧ p₀.navigation = p₁.navigation
        ∧ p₀.page_number = 0 ∧ p₁.page_number = 1
        ∧ p₀.navigation.can_go_back = false
        ∧ p₀.navigation.previous_timestamp = none
        ∧ (idx3 ≠ [] → p₀.items ≠ []) :=
  ⟨by decide, paginate_zero_aliases_page_one idx3 1 7 (by decide)⟩

/-- Claim C4, counterexample: requesting page 99 of a one-entry index (a page
past the end) yields an empty page whose `timestamp_range` is the wall-clock
time of the call, so two calls with the same index and the same request made
at different instants return different `Page` values — `paginate` is not a
pure function of `(index, request)`. -/
theorem paginate_past_end_depends_on_clock :
    paginate (order_by_timestamp [] [entry1]) 1 0 99
        ≠ paginate (order_by_timestamp [] [entry1]) 1 1 99
      ∧ (paginate (order_by_timestamp [] [entry1]) 1 0 99).map Page.items
        = some [] := by
  constructor
  · decide
  · rfl

/-- Claim C4 (amended): for `page_size ≥ 1`, `paginate` and
`continue_from_timestamp` always return a page (a request past the end gives
an empty page, not an error), and the result depends only on the index and
the request in every field except the `timestamp_range` of an empty page,
which is the wall-clock time of the call; whenever the returned items are
non-empty the whole page is identical across calls. -/
theorem paginate_pure_except_empty_range (idx : List (Nat × LogEntry))
    (ps page T now₁ now₂ : Nat) (h : 1 ≤ ps) :
    (∃ p₁ p₂ : Page,
        paginate idx ps now₁ page = some p₁
        ∧ paginate idx ps now₂ page = some p₂
        ∧ p₁.page_number = p₂.page_number ∧ p₁.total_pages = p₂.total_pages
        ∧ p₁.items = p₂.items ∧ p₁.navigation = p₂.navigation
        ∧ p₁.metadata = p₂.metadata ∧ (p₁.items ≠ [] → p₁ = p₂))
    ∧ (∃ q₁ q₂ : Page,
        continue_from_timestamp idx ps now₁ T = some q₁
        ∧ continue_from_timestamp idx ps now₂ T = some q₂
        ∧ q₁.page_number = q₂.page_number ∧ q₁.total_pages = q₂.total_pages
        ∧ q₁.items = q₂.items ∧ q₁.navigation = q₂.navigation
        ∧ q₁.metadata = q₂.metadata ∧ (q₁.items ≠ [] → q₁ = q₂)) := by
  constructor
  · exact ⟨_, _, paginate_some idx ps now₁ page h,
      paginate_some idx ps now₂ page h, rfl, rfl, rfl, rfl, rfl,
      fun hne => pageBody_now_indep idx ps page _ now₁ now₂ hne⟩
  · rw [continue_eq_paginate idx ps now₁ T h, continue_eq_paginate idx ps now₂ T h]
    exact ⟨_, _, paginate_some idx ps now₁ _ h,
      paginate_some idx ps now₂ _ h, rfl, rfl, rfl, rfl, rfl,
      fun hne => pageBody_now_indep idx ps _ _ now₁ now₂ hne⟩

/-- Claim C4 witness: the purity-modulo-clock theorem applied to the concrete
three-entry index, page size 2, page 1, resumption timestamp 2, clock
instants 0 and 1. -/
theorem paginate_pure_except_empty_range_witness :
    (1 : Nat) ≤ 2
    ∧ ((∃ p₁ p₂ : Page,
        paginate idx3 2 0 1 = some p₁
        ∧ paginate idx3 2 1 1 = some p₂
        ∧ p₁.page_number = p₂.page_number ∧ p₁.total_pages = p₂.total_pages
        ∧ p₁.items = p₂.items ∧ p₁.navigation = p₂.navigation
        ∧ p₁.metadata = p₂.metadata ∧ (p₁.items ≠ [] → p₁ = p₂))
      ∧ (∃ q₁ q₂ : Page,
        continue_from_timestamp idx3 2 0 2 = some q₁
        ∧ continue_from_timestamp idx3 2 1 2 = some q₂
        ∧ q₁.page_number = q₂.page_number ∧ q₁.total_pages = q₂.total_pages
        ∧ q₁.items = q₂.items ∧ q₁.navigation = q₂.navigation
        ∧ q₁.metadata = q₂.metadata ∧ (q₁.items ≠ [] → q₁ = q₂))) :=
  ⟨by decide, paginate_pure_except_empty_range idx3 2 1 2 0 1 (by decide)⟩

/-! ### Resumption-position lemmas -/

/-- `Iterator::position` finds nothing when no element satisfies the test. -/
theorem positionFrom_eq_none {p : Nat → Bool} :
    ∀ {l : List Nat}, (∀ t ∈ l, p t = false) → positionFrom p l = none := by
  intro l
  induction l with
  | nil => intro _; rfl
  | cons a t ih =>
    intro h
    have ha := h a (List.mem_cons_self a t)
    simp [positionFrom, ha, ih fun b hb => h b (List.mem_cons_of_mem a hb)]

/-- `Iterator::position` finds an index when some member satisfies the test. -/
theorem positionFrom_isSome_of_mem {p : Nat → Bool} {t : Nat} :
    ∀ {l : List Nat}, t ∈ l → p t = true →
      ∃ i, positionFrom p l = some i := by
  intro l
  induction l with
  | nil => intro h; simp at h
  | cons a r ih =>
    intro hm hpt
    by_cases ha : p a = true
    · exact ⟨0, by simp [positionFrom, ha]⟩
    · have ha' : p a = false := by simpa using ha
      rcases List.mem_cons.mp hm with rfl | hm'
      · rw [hpt] at ha'; cases ha'
      · obtain ⟨j, hj⟩ := ih hm' hpt
        exact ⟨j + 1, by simp [positionFrom, ha', hj]⟩

/-- The index found by `Iterator::position` is in range and its element
satisfies the test. -/
theorem positionFrom_spec {p : Nat → Bool} :
    ∀ {l : List Nat} {i : Nat}, positionFrom p l = some i →
      ∃ h : i < l.length, p (l.get ⟨i, h⟩) = true := by
  intro l
  induction l with
  | nil => intro i h; simp [positionFrom] at h
  | cons a r ih =>
    intro i h
    by_cases ha : p a = true
    · simp [positionFrom, ha] at h
      subst h
      exact ⟨by simp, ha⟩
    · have ha' : p a = false := by simpa using ha
      simp [positionFrom, ha'] at h
      obtain ⟨j, hj, rfl⟩ := h
      obtain ⟨hlt, hp⟩ := ih hj
      exact ⟨Nat.succ_lt_succ hlt, hp⟩

/-- An in-range element whose index lies inside the `[s, s + c)` window is a
member of the sliced window `(l.drop s).take c`. -/
theorem get_mem_drop_take {α : Type} :
    ∀ (l : List α) (s c i : Nat) (h : i < l.length), s ≤ i → i < s + c →
      l.get ⟨i, h⟩ ∈ (l.drop s).take c := by
  intro l
  induction l with
  | nil => intro s c i h; simp at h
  | cons a t ih =>
    intro s c i h hs hc
    cases s with
    | zero =>
      cases c with
      | zero => omega
      | succ c' =>
        cases i with
        | zero => simp [List.take]
        | succ i' =>
          have h' : i' < t.length := by simpa using h
          exact List.mem_cons_of_mem a
            (ih 0 c' i' h' (Nat.zero_le _) (by omega))
    | succ s' =>
      cases i with
      | zero => omega
      | succ i' =>
        have h' : i' < t.length := by simpa using h
        exact ih s' c i' h' (by omega) (by omega)

/-- An index lies inside the page window that contains it. -/
theorem div_mul_window (i ps : Nat) (h : 1 ≤ ps) :
    i / ps * ps ≤ i ∧ i < i / ps * ps + ps := by
  refine ⟨Nat.div_mul_le_self i ps, ?_⟩
  have h1 := Nat.div_add_mod i ps
  have h2 : i % ps < ps := Nat.mod_lt i (by omega)
  calc i = ps * (i / ps) + i % ps := h1.symm
    _ < ps * (i / ps) + ps := by omega
    _ = i / ps * ps + ps := by rw [Nat.mul_comm]

/-- Claim C2, counterexample: on the three-entry index (timestamps 1, 2, 3)
with page size 1 and `T = 10` — greater than every timestamp —
`continue_from_timestamp` returns the page holding only the FIRST entry; the
index's final entry is `entry3`, which is not in that page, so resumption
past the newest entry does not continue from the end. -/
theorem continue_past_end_cex :
    (continue_from_timestamp idx3 1 99 10).map Page.items = some [entry1]
    ∧ (idx3.map Prod.snd).getLast? = some entry3
    ∧ entry3 ∉ [entry1] := by
  refine ⟨rfl, rfl, ?_⟩
  decide

/-- Claim C2 (amended): when no entry has timestamp ≥ T, the position lookup
returns `None`, `unwrap_or(0)` turns it into position 0, and
`continue_from_timestamp(T)` returns the FIRST page — resumption past the
newest entry restarts from the beginning of the sequence, not from its end. -/
theorem continue_past_end_returns_first_page (idx : List (Nat × LogEntry))
    (ps now T : Nat) (h : 1 ≤ ps)
    (hT : ∀ t ∈ idx.map Prod.fst, t < T) :
    continue_from_timestamp idx ps now T = paginate idx ps now 1 := by
  have hp : positionFrom (fun t => T ≤ t) (idx.map Prod.fst) = none :=
    positionFrom_eq_none fun t ht => decide_eq_false (Nat.not_le.mpr (hT t ht))
  have h2 : ¬ ps = 0 := by omega
  simp [continue_from_timestamp, resume_position, hp, checkedDiv, h2,
    Nat.zero_div]

/-- Claim C2 witness: the first-page theorem applied to the concrete
three-entry index with page size 1 and timestamp 10. -/
theorem continue_past_end_returns_first_page_witness :
    ((1 : Nat) ≤ 1 ∧ ∀ t ∈ idx3.map Prod.fst, t < 10)
    ∧ continue_from_timestamp idx3 1 0 10 = paginate idx3 1 0 1 :=
  ⟨⟨by decide, by decide⟩,
    continue_past_end_returns_first_page idx3 1 0 10 (by decide) (by decide)⟩

/-- Claim C3, counterexample: on the three-entry index (timestamps 1, 2, 3)
with page size 2 and `T = 2` — a timestamp present in the index —
`continue_from_timestamp` returns a page whose FIRST item has timestamp 1,
which is not ≥ 2: the returned page starts at a page boundary before the
resumption position. -/
theorem resume_first_item_older_cex :
    ((continue_from_timestamp idx3 2 99 2).map
      fun pg => pg.items.head?.map LogEntry.timestamp) = some (some 1)
    ∧ ¬ ((2 : Nat) ≤ 1) := by
  refine ⟨rfl, by decide⟩

/-- Claim C3 (amended): for any timestamp T present in the built index and
`page_size ≥ 1`, `continue_from_timestamp(T)` is exactly
`paginate(position(T) / page_size + 1)` — where `position(T)` is the index
of the first entry with timestamp ≥ T — and the returned page CONTAINS an
item with timestamp ≥ T (the entry at that position); the page's first item,
however, may be older than T, because the page starts at the enclosing page
boundary. -/
theorem resume_present_timestamp (prev : List (Nat × LogEntry))
    (logs : List LogEntry) (ps now T : Nat) (h : 1 ≤ ps)
    (hT : T ∈ (order_by_timestamp prev logs).map Prod.fst) :
    ∃ pg : Page,
      continue_from_timestamp (order_by_timestamp prev logs) ps now T = some pg
      ∧ continue_from_timestamp (order_by_timestamp prev logs) ps now T
          = paginate (order_by_timestamp prev logs) ps now
              (resume_position (order_by_timestamp prev logs) T / ps + 1)
      ∧ ∃ e ∈ pg.items, T ≤ e.timestamp := by
  have h0 : order_by_timestamp prev logs
      = logs.foldl (fun m e => btreeInsert e.timestamp e m) [] := rfl
  have hts := (foldl_insert_sorted_ts logs [] (by simp) (by simp)).2
  obtain ⟨i, hi⟩ :=
    positionFrom_isSome_of_mem (p := fun t => T ≤ t) hT (by simp)
  have hres : resume_position (order_by_timestamp prev logs) T = i := by
    simp [resume_position, hi]
  obtain ⟨hilt, hpi⟩ := positionFrom_spec hi
  have hlen : ((order_by_timestamp prev logs).map Prod.fst).length
      = (order_by_timestamp prev logs).length := List.length_map _ _
  have hilt' : i < (order_by_timestamp prev logs).length := by
    rw [← hlen]; exact hilt
  have hilt'' : i < ((order_by_timestamp prev logs).map Prod.snd).length := by
    rw [List.length_map]; exact hilt'
  have hceq := continue_eq_paginate (order_by_timestamp prev logs) ps now T h
  rw [hres] at hceq
  refine ⟨_, by rw [hceq]; exact paginate_some _ ps now _ h, by
    rw [hres]; exact hceq.trans rfl, ?_⟩
  -- the entry at the resumption position is inside the returned page
  have hwin := div_mul_window i ps h
  have hstart : (i / ps + 1 - 1) * ps = i / ps * ps := by simp
  refine ⟨((order_by_timestamp prev logs).map Prod.snd).get ⟨i, hilt''⟩, ?_, ?_⟩
  · show _ ∈ (pageBody (order_by_timestamp prev logs) ps now (i / ps + 1) _).items
    show _ ∈ (((order_by_timestamp prev logs).map Prod.snd).drop
      ((i / ps + 1 - 1) * ps)).take ps
    rw [hstart]
    exact get_mem_drop_take _ (i / ps * ps) ps i hilt'' hwin.1 hwin.2
  · -- that entry's timestamp is the key at position i, which satisfies T ≤ ·
    have hkey : ((order_by_timestamp prev logs).map Prod.fst).get ⟨i, hilt⟩
        = ((order_by_timestamp prev logs).get ⟨i, hilt'⟩).1 := by
      simp [List.get_eq_getElem, List.getElem_map]
    have hval : ((order_by_timestamp prev logs).map Prod.snd).get ⟨i, hilt''⟩
        = ((order_by_timestamp prev logs).get ⟨i, hilt'⟩).2 := by
      simp [List.get_eq_getElem, List.getElem_map]
    have hinv : ((order_by_timestamp prev logs).get ⟨i, hilt'⟩).2.timestamp
        = ((order_by_timestamp prev logs).get ⟨i, hilt'⟩).1 :=
      hts _ (List.get_mem (order_by_timestamp prev logs) i hilt')
    rw [hval, hinv, ← hkey]
    exact of_decide_eq_true hpi

/-- Claim C3 witness: the resumption theorem applied to the index built from
the three sample entries, page size 2, timestamp 2. -/
theorem resume_present_timestamp_witness :
    ((1 : Nat) ≤ 2
      ∧ 2 ∈ (order_by_timestamp [] [entry1, entry2, entry3]).map Prod.fst)
    ∧ ∃ pg : Page,
      continue_from_timestamp (order_by_timestamp [] [entry1, entry2, entry3])
          2 0 2 = some pg
      ∧ continue_from_timestamp (order_by_timestamp [] [entry1, entry2, entry3])
          2 0 2
          = paginate (order_by_timestamp [] [entry1, entry2, entry3]) 2 0
              (resume_position (order_by_timestamp [] [entry1, entry2, entry3])
                2 / 2 + 1)
      ∧ ∃ e ∈ pg.items, 2 ≤ e.timestamp :=
  ⟨⟨by decide, by decide⟩,
    resume_present_timestamp [] [entry1, entry2, entry3] 2 0 2 (by decide)
      (by decide)⟩

/-! ### Pagination coverage -/

/-- Splitting a list into `⌈length / ps⌉` consecutive windows of `ps`
elements and concatenating them reproduces the list. The `fuel` argument
bounds the length for structural recursion. -/
theorem chunks_flatten {α : Type} (ps : Nat) (hps : 1 ≤ ps) :
    ∀ (fuel : Nat) (l : List α), l.length ≤ fuel →
      ((List.range ((l.length + ps - 1) / ps)).map
        fun i => (l.drop (i * ps)).take ps).flatten = l := by
  intro fuel
  induction fuel with
  | zero =>
    intro l hl
    have h0 : l = [] := List.eq_nil_of_length_eq_zero (Nat.le_zero.mp hl)
    subst h0
    have h1 : (([] : List α).length + ps - 1) / ps = 0 :=
      Nat.div_eq_of_lt (by simp; omega)
    rw [h1]
    simp
  | succ n ih =>
    intro l hl
    cases l with
    | nil =>
      have h1 : (([] : List α).length + ps - 1) / ps = 0 :=
        Nat.div_eq_of_lt (by simp; omega)
      rw [h1]
      simp
    | cons a t =>
      have hlen : 1 ≤ (a :: t).length := by simp
      have h1 : (a :: t).length + ps - 1 = ((a :: t).length - 1) + ps := by
        omega
      have h2 : ((a :: t).length + ps - 1) / ps
          = ((a :: t).length - 1) / ps + 1 := by
        rw [h1, Nat.add_div_right _ (by omega : 0 < ps)]
      have hk : ((a :: t).length - 1) / ps
          = (((a :: t).drop ps).length + ps - 1) / ps := by
        rw [List.length_drop]
        rcases le_or_lt ps (a :: t).length with hle | hlt
        · congr 1
          omega
        · have e1 : (a :: t).length - ps = 0 := by omega
          rw [e1, Nat.div_eq_of_lt (by omega), Nat.div_eq_of_lt (by omega)]
      rw [h2, List.range_succ_eq_map, List.map_cons, List.flatten_cons,
        List.map_map]
      have hhead : ((a :: t).drop (0 * ps)).take ps = (a :: t).take ps := by
        simp
      have htail : (List.range (((a :: t).length - 1) / ps)).map
          ((fun i => ((a :: t).drop (i * ps)).take ps) ∘ Nat.succ)
          = (List.range ((((a :: t).drop ps).length + ps - 1) / ps)).map
              fun i => (((a :: t).drop ps).drop (i * ps)).take ps := by
        rw [← hk]
        refine List.map_congr_left ?_
        intro i _
        show (((a :: t).drop (Nat.succ i * ps)).take ps)
          = ((((a :: t).drop ps).drop (i * ps)).take ps)
        rw [List.drop_drop]
        congr 2
        rw [Nat.succ_mul, Nat.add_comm]
      have hfuel : ((a :: t).drop ps).length ≤ n := by
        rw [List.length_drop]
        simp only [List.length_cons] at hl ⊢
        omega
      rw [hhead, htail, ih ((a :: t).drop ps) hfuel, List.take_append_drop]

/-- Claim C5: for any built index and `page_size ≥ 1`, concatenating the
items of `paginate 1`, `paginate 2`, …, `paginate total_pages` — with
`total_pages = ⌈total_entries / page_size⌉` — reproduces the full
timestamp-ordered sequence of the index, with no entry missing and none
repeated. -/
theorem paginate_coverage (idx : List (Nat × LogEntry)) (ps now : Nat)
    (h : 1 ≤ ps) :
    ((List.range ((idx.length + ps - 1) / ps)).map
        fun i => ((paginate idx ps now (i + 1)).map Page.items).getD []).flatten
      = idx.map Prod.snd := by
  have hitems : ∀ i : Nat,
      ((paginate idx ps now (i + 1)).map Page.items).getD []
        = ((idx.map Prod.snd).drop (i * ps)).take ps := by
    intro i
    rw [paginate_some idx ps now (i + 1) h]
    simp [pageBody]
  simp only [hitems]
  have hlen : idx.length = (idx.map Prod.snd).length :=
    (List.length_map _ _).symm
  rw [hlen]
  exact chunks_flatten ps h (idx.map Prod.snd).length (idx.map Prod.snd)
    (Nat.le_refl _)

/-- Claim C5 witness: coverage on the concrete three-entry index with page
size 2 (two pages: two items then one). -/
theorem paginate_coverage_witness :
    (1 : Nat) ≤ 2
    ∧ ((List.range ((idx3.length + 2 - 1) / 2)).map
        fun i => ((paginate idx3 2 0 (i + 1)).map Page.items).getD []).flatten
      = idx3.map Prod.snd :=
  ⟨by decide, paginate_coverage idx3 2 0 (by decide)⟩

/-! ### Error handling -/

/-- Claim C6, counterexample: a repository with a single commit whose
tree-diff computation fails: `collect_logs_from_path` returns the error —
no `LogEntry` with empty diff statistics is recorded, the commit is dropped
and the walk of that repository aborts. -/
theorem diff_error_cex :
    collect_logs_from_path 0 [commitBad] "root" = Except.error "diff failed"
      ∧ create_log_entry_from_commit 0 commitBad "root"
        = Except.error "diff failed" :=
  ⟨rfl, rfl⟩

/-- Claim C6 (amended): a commit whose tree-diff computation fails is NOT
recorded with empty diff statistics: `create_log_entry_from_commit`
propagates the diff error with `?`, and `collect_logs_from_path` aborts the
walk of the whole repository containing that commit with an error — the
failure is recoverable only at submodule granularity (the aggregator later
skips the failed repository), not at commit granularity. -/
theorem diff_error_aborts_repo_walk (now : Nat) (c : CommitData)
    (sub : String) (e : String) (pre post : List CommitData)
    (h : c.diffResult = .error e) :
    create_log_entry_from_commit now c sub = .error e
    ∧ ∃ e₂ : String,
        collect_logs_from_path now (pre ++ c :: post) sub = .error e₂ := by
  have hc : create_log_entry_from_commit now c sub = .error e := by
    simp [create_log_entry_from_commit, h]
  refine ⟨hc, ?_⟩
  induction pre with
  | nil => exact ⟨e, by simp [collect_logs_from_path, hc]⟩
  | cons a r ih =>
    obtain ⟨e₂, he₂⟩ := ih
    match ha : create_log_entry_from_commit now a sub with
    | .error e₃ =>
      exact ⟨e₃, by simp [collect_logs_from_path, ha]⟩
    | .ok v =>
      exact ⟨e₂, by simp [collect_logs_from_path, ha, he₂]⟩

/-- Claim C6 witness: the abort theorem applied to the concrete failing
commit as the only commit of the repository. -/
theorem diff_error_aborts_repo_walk_witness :
    commitBad.diffResult = Except.error "diff failed"
    ∧ (create_log_entry_from_commit 0 commitBad "root"
          = Except.error "diff failed"
        ∧ ∃ e₂ : String,
            collect_logs_from_path 0 ([] ++ commitBad :: []) "root"
              = Except.error e₂) :=
  ⟨rfl, diff_error_aborts_repo_walk 0 commitBad "root" "diff failed" [] [] rfl⟩

/-- The aggregation fold appends exactly the kept logs. -/
theorem collect_fold_eq :
    ∀ (subs : List SubmoduleCollection) (acc : List LogEntry),
      subs.foldl
        (fun acc s =>
          if s.pathExists then
            match s.collectResult with
            | .ok logs => acc ++ logs
            | .error _ => acc
          else acc)
        acc
        = acc ++ keptLogs subs := by
  intro subs
  induction subs with
  | nil => intro acc; simp [keptLogs]
  | cons s r ih =>
    intro acc
    simp only [List.foldl_cons]
    rw [ih]
    by_cases hp : s.pathExists
    · match hc : s.collectResult with
      | .ok logs => simp [keptLogs, hp, hc, List.append_assoc]
      | .error e => simp [keptLogs, hp, hc]
    · simp [keptLogs, hp]

/-- Claim C7: `collect_all_submodule_logs` always returns `Ok`: a submodule
whose path does not exist or whose collection fails is skipped, and the
result is exactly the concatenation of the logs of the submodules whose path
exists and whose collection succeeded — per-submodule errors never abort the
aggregation. -/
theorem collect_all_never_fails (subs : List SubmoduleCollection)
    (ragit : Bool) :
    collect_all_submodule_logs subs ragit = Except.ok (keptLogs subs) := by
  have hf := collect_fold_eq subs []
  cases ragit <;>
    simp [collect_all_submodule_logs, enhance_with_ragit_analysis, hf]

end UnifiedKnowledge
